import Mathlib

/-!
Verification development for the WATCHRS repository (an analog-clock /
metronome renderer).  The definitions below are a shallow embedding of the
program's source:

* `color_rgb`, `Point`, `Dimensions`, `Canvas` and the drawing primitives
  `clear`, `put_pixel`, `draw_filled_circle`, `draw_line`, `draw_frame`
  embed `src/draw.rs`.  Rust `isize` coordinates are modelled as `ℤ`
  (the program never approaches the overflow range), `usize` dimensions as
  `ℕ`, and the `u32` pixel buffer as `List ℕ`.  Rust's truncating integer
  division on `isize` is `Int.tdiv`.  Buffer indexing, which panics in Rust
  when out of range, is additionally embedded by `Checked` variants that
  return `none` exactly when an index would be out of range (or, in
  `draw_frame`, when the `usize` subtraction `width - 1` would underflow).

* `MIN_FPS`, `MAX_FPS`, `clampFps`, `frame_duration`, `wakeLoop`, `App` and
  `about_to_wait` embed the frame-pacing scheduler of `src/main.rs`
  (the `watch` feature).  Monotonic instants and durations are modelled as
  exact rationals (seconds); `about_to_wait` returns the number of redraw
  requests it makes together with the updated state.

* `RateEvent`, `applyEvent`, `applyEvents` embed the `+`/`-` key handling
  of `window_event` in `src/main.rs` (the `watch` feature).

The Bresenham loop of `draw_line` runs until it reaches the endpoint; it is
embedded as `lineLoop` with an explicit fuel argument, and the theorem for
claim C7 proves that the fuel `max |dx| |dy| + 1` used by `bresenhamWalk`
is exact: the loop stops by reaching the endpoint, and extra fuel does not
change the result.
-/

/-- `color_rgb` from `src/draw.rs`: widen each channel, shift red left 16,
green left 8, combine with bitwise or. -/
def color_rgb (r g b : ℕ) : ℕ :=
  let red_bits := r <<< 16
  let green_bits := g <<< 8
  let blue_bits := b
  red_bits ||| green_bits ||| blue_bits

/-- `Point` from `src/draw.rs`: a signed 2D integer coordinate. -/
structure Point where
  x : ℤ
  y : ℤ
deriving DecidableEq

/-- `Dimensions` from `src/draw.rs`. -/
structure Dimensions where
  width : ℕ
  height : ℕ
deriving DecidableEq

/-- `Canvas` from `src/draw.rs`: a pixel buffer plus its dimensions. -/
structure Canvas where
  buf : List ℕ
  size : Dimensions
deriving DecidableEq

def Canvas.width (c : Canvas) : ℕ := c.size.width

def Canvas.height (c : Canvas) : ℕ := c.size.height

/-- `Canvas::clear`: overwrite every pixel with `color`. -/
def Canvas.clear (c : Canvas) (color : ℕ) : Canvas :=
  ⟨c.buf.map (fun _ => color), c.size⟩

/-- `Canvas::put_pixel`: plot one pixel at `(x, y)`, ignoring it if out of
bounds.  Mirrors the source's two guards (`x < 0 || y < 0`, then the cast to
`usize` and `x >= width || y >= height`) followed by the write to
`buf[y * width + x]`. -/
def Canvas.put_pixel (c : Canvas) (x y : ℤ) (color : ℕ) : Canvas :=
  if x < 0 ∨ y < 0 then c
  else if c.width ≤ x.toNat ∨ c.height ≤ y.toNat then c
  else ⟨c.buf.set (y.toNat * c.width + x.toNat) color, c.size⟩

/-- The buffer index that `put_pixel c x y _` writes, when `(x, y)` is in
bounds; `none` when the write is discarded. -/
def pixelIndex (c : Canvas) (x y : ℤ) : Option ℕ :=
  if 0 ≤ x ∧ 0 ≤ y ∧ x.toNat < c.width ∧ y.toNat < c.height then
    some (y.toNat * c.width + x.toNat)
  else none

/-- `put_pixel` with the Rust indexing panic made explicit: `none` exactly
when the (guard-approved) write would index outside the buffer. -/
def putPixelChecked (c : Canvas) (x y : ℤ) (color : ℕ) : Option Canvas :=
  if x < 0 ∨ y < 0 then some c
  else if c.width ≤ x.toNat ∨ c.height ≤ y.toNat then some c
  else if y.toNat * c.width + x.toNat < c.buf.length then
    some ⟨c.buf.set (y.toNat * c.width + x.toNat) color, c.size⟩
  else none

/-- Plot a list of absolute coordinates, in order, with one color.  This is
the shape shared by the circle and line primitives: each is a fold of
`put_pixel` over a list of points. -/
def plot (c : Canvas) (ps : List (ℤ × ℤ)) (color : ℕ) : Canvas :=
  ps.foldl (fun cv p => cv.put_pixel p.1 p.2 color) c

def plotChecked (c : Canvas) (ps : List (ℤ × ℤ)) (color : ℕ) : Option Canvas :=
  ps.foldlM (fun cv p => putPixelChecked cv p.1 p.2 color) c

/-- The Rust iterator `-radius..=radius` over `isize`: empty when
`radius < 0`, else `-radius, …, radius`. -/
def offsetRange (radius : ℤ) : List ℤ :=
  (List.range (2 * radius + 1).toNat).map (fun (k : ℕ) => -radius + (k : ℤ))

/-- The offsets visited by the two nested loops of `draw_filled_circle`,
in source order (`dy` outer, `dx` inner), keeping those that pass the
`dx*dx + dy*dy <= radius*radius` test. -/
def circleOffsets (radius : ℤ) : List (ℤ × ℤ) :=
  (offsetRange radius).flatMap (fun dy =>
    ((offsetRange radius).filter
        (fun dx => decide (dx * dx + dy * dy ≤ radius * radius))).map
      (fun dx => (dx, dy)))

/-- The absolute points plotted by `draw_filled_circle center radius _`. -/
def circlePoints (center : Point) (radius : ℤ) : List (ℤ × ℤ) :=
  (circleOffsets radius).map (fun d => (center.x + d.1, center.y + d.2))

/-- `Canvas::draw_filled_circle` from `src/draw.rs`. -/
def Canvas.draw_filled_circle (c : Canvas) (center : Point) (radius : ℤ)
    (color : ℕ) : Canvas :=
  plot c (circlePoints center radius) color

def drawFilledCircleChecked (c : Canvas) (center : Point) (radius : ℤ)
    (color : ℕ) : Option Canvas :=
  plotChecked c (circlePoints center radius) color

/-- The `loop { … }` of `Canvas::draw_line`, with an explicit fuel.  Each
iteration emits the current position (where the source draws a filled
circle), breaks once `(x0, y0) = (x1, y1)`, and otherwise performs the
two-branch integer error update with `e2 = 2 * err` computed once:
step `x` when `e2 ≥ dy`, step `y` when `e2 ≤ dx`. -/
def lineLoop (x1 y1 dx dy sx sy : ℤ) : ℕ → ℤ → ℤ → ℤ → List Point
  | 0, _, _, _ => []
  | n + 1, x0, y0, err =>
    ⟨x0, y0⟩ ::
      (if x0 = x1 ∧ y0 = y1 then []
       else
         let e2 := 2 * err
         let x0n := if dy ≤ e2 then x0 + sx else x0
         let errA := if dy ≤ e2 then err + dy else err
         let y0n := if e2 ≤ dx then y0 + sy else y0
         let errB := if e2 ≤ dx then errA + dx else errA
         lineLoop x1 y1 dx dy sx sy n x0n y0n errB)

/-- The lattice points visited by `draw_line`'s Bresenham walk from `a` to
`b`, inclusive.  `dx`, `sx`, `dy`, `sy` and the initial error `dx + dy` are
exactly the source's initialisation; the fuel `max |Δx| |Δy| + 1` is proved
exact by the theorem for claim C7. -/
def bresenhamWalk (a b : Point) : List Point :=
  let dx := |b.x - a.x|
  let sx : ℤ := if a.x < b.x then 1 else -1
  let dy := -|b.y - a.y|
  let sy : ℤ := if a.y < b.y then 1 else -1
  lineLoop b.x b.y dx dy sx sy (max (b.x - a.x).natAbs (b.y - a.y).natAbs + 1)
    a.x a.y (dx + dy)

/-- `Canvas::draw_line` from `src/draw.rs`: sweep a filled circle of radius
`thickness / 2` (Rust's truncating `isize` division) along the Bresenham
walk. -/
def Canvas.draw_line (c : Canvas) (a b : Point) (thickness : ℤ)
    (color : ℕ) : Canvas :=
  (bresenhamWalk a b).foldl
    (fun cv p => cv.draw_filled_circle p (Int.tdiv thickness 2) color) c

def drawLineChecked (c : Canvas) (a b : Point) (thickness : ℤ)
    (color : ℕ) : Option Canvas :=
  (bresenhamWalk a b).foldlM
    (fun cv p => drawFilledCircleChecked cv p (Int.tdiv thickness 2) color) c

/-- `Canvas::draw_frame` from `src/draw.rs`, with the two Rust panic sources
made explicit: `max_x()`/`max_y()` compute `width - 1`/`height - 1` in
`usize`, which underflows when a dimension is `0` (modelled as `none`), and
the four `draw_line` calls index the buffer (modelled by
`drawLineChecked`). -/
def drawFrameChecked (c : Canvas) (padding thickness : ℤ)
    (color : ℕ) : Option Canvas :=
  if c.width = 0 ∨ c.height = 0 then none
  else
    let w : ℤ := ((c.width - 1 : ℕ) : ℤ)
    let h : ℤ := ((c.height - 1 : ℕ) : ℤ)
    let p := padding
    let top_left : Point := ⟨p, p⟩
    let top_right : Point := ⟨w - p, p⟩
    let bottom_left : Point := ⟨p, h - p⟩
    let bottom_right : Point := ⟨w - p, h - p⟩
    do
      let c1 ← drawLineChecked c top_left top_right thickness color
      let c2 ← drawLineChecked c1 top_left bottom_left thickness color
      let c3 ← drawLineChecked c2 bottom_left bottom_right thickness color
      drawLineChecked c3 bottom_right top_right thickness color

/-- `MIN_FPS` for the `watch` feature of `src/main.rs`. -/
def MIN_FPS : ℕ := 1

/-- `MAX_FPS` for the `watch` feature of `src/main.rs`. -/
def MAX_FPS : ℕ := 20

/-- `self.fps.clamp(MIN_FPS, MAX_FPS)` from `about_to_wait`. -/
def clampFps (fps : ℕ) : ℕ := min (max fps MIN_FPS) MAX_FPS

/-- `Duration::from_secs_f32(1.0 / fps)` modelled exactly: `1 / fps`
seconds as a rational. -/
def frame_duration (fps : ℕ) : ℚ := 1 / (fps : ℚ)

/-- The catch-up loop of `about_to_wait`:
`loop { next_frame += frame_duration; if next_frame > now { break; } }`. -/
def wakeLoop (now interval next : ℚ) : ℚ :=
  if 0 < interval then
    if now < next + interval then next + interval
    else wakeLoop now interval (next + interval)
  else next + interval
termination_by (⌈(now - next) / interval⌉).toNat
decreasing_by
  rename_i hpos hle
  push_neg at hle
  have h1 : (1 : ℚ) ≤ (now - next) / interval := by
    rw [le_div_iff₀ hpos]; linarith
  have h2 : (0 : ℤ) < ⌈(now - next) / interval⌉ := by
    rw [Int.ceil_pos]; linarith
  have h3 : ⌈(now - (next + interval)) / interval⌉ = ⌈(now - next) / interval⌉ - 1 := by
    have hx : (now - (next + interval)) / interval = (now - next) / interval - 1 := by
      field_simp
      ring
    rw [hx, Int.ceil_sub_one]
  omega

/-- The scheduler state of `App` in `src/main.rs` (the fields read or
written by `about_to_wait`): the start instant, the current rate, and the
next scheduled wake instant, with instants as rational seconds. -/
structure App where
  start : ℚ
  fps : ℕ
  next_frame : ℚ
deriving DecidableEq

/-- `about_to_wait` (the `watch` feature) from `src/main.rs`, as a pure
function of the state and the monotonic reading `now`.  Returns the number
of `request_redraw` calls made (0 or 1) and the updated state. -/
def about_to_wait (s : App) (now : ℚ) : ℕ × App :=
  let fps := clampFps s.fps
  if s.next_frame ≤ now then
    (1, ⟨s.start, s.fps, wakeLoop now (frame_duration fps) s.next_frame⟩)
  else (0, s)

/-- The discrete rate-adjustment events handled by `window_event`. -/
inductive RateEvent where
  | increase
  | decrease
deriving DecidableEq

/-- The `+` / `-` key handling of `window_event` (the `watch` feature):
`fps = (fps + 2).min(MAX_FPS)` and `fps = fps.saturating_sub(2).max(MIN_FPS)`
(Nat subtraction is saturating). -/
def applyEvent (fps : ℕ) : RateEvent → ℕ
  | RateEvent.increase => min (fps + 2) MAX_FPS
  | RateEvent.decrease => max (fps - 2) MIN_FPS

/-- A whole sequence of rate-adjustment events, applied in order. -/
def applyEvents (fps : ℕ) (evs : List RateEvent) : ℕ :=
  evs.foldl applyEvent fps

/-! ### Basic preservation and indexing lemmas for `put_pixel` -/

theorem put_pixel_size (c : Canvas) (x y : ℤ) (col : ℕ) :
    (c.put_pixel x y col).size = c.size := by
  unfold Canvas.put_pixel
  split_ifs <;> rfl

theorem put_pixel_length (c : Canvas) (x y : ℤ) (col : ℕ) :
    (c.put_pixel x y col).buf.length = c.buf.length := by
  unfold Canvas.put_pixel
  split_ifs <;> simp

theorem pixelIndex_congr (c c2 : Canvas) (hs : c.size = c2.size) (x y : ℤ) :
    pixelIndex c x y = pixelIndex c2 x y := by
  unfold pixelIndex Canvas.width Canvas.height
  rw [hs]

theorem index_lt_of_inbounds (c : Canvas) (x y : ℤ)
    (hlen : c.buf.length = c.width * c.height)
    (hxw : x.toNat < c.width) (hyh : y.toNat < c.height) :
    y.toNat * c.width + x.toNat < c.buf.length := by
  have ha : (y.toNat + 1) * c.width ≤ c.height * c.width :=
    Nat.mul_le_mul_right _ hyh
  have hb : (y.toNat + 1) * c.width = y.toNat * c.width + c.width := by ring
  have hc : c.height * c.width = c.width * c.height := by ring
  omega

theorem pixelIndex_lt (c : Canvas) (x y : ℤ) (i : ℕ)
    (hlen : c.buf.length = c.width * c.height)
    (h : pixelIndex c x y = some i) : i < c.buf.length := by
  unfold pixelIndex at h
  by_cases hin : 0 ≤ x ∧ 0 ≤ y ∧ x.toNat < c.width ∧ y.toNat < c.height
  · rw [if_pos hin] at h
    simp only [Option.some.injEq] at h
    have := index_lt_of_inbounds c x y hlen hin.2.2.1 hin.2.2.2
    omega
  · rw [if_neg hin] at h
    exact absurd h (by simp)

theorem put_pixel_get? (c : Canvas) (x y : ℤ) (col : ℕ) (i : ℕ)
    (hlen : c.buf.length = c.width * c.height) :
    (c.put_pixel x y col).buf[i]? =
      if pixelIndex c x y = some i then some col else c.buf[i]? := by
  by_cases hin : 0 ≤ x ∧ 0 ≤ y ∧ x.toNat < c.width ∧ y.toNat < c.height
  · obtain ⟨hx0, hy0, hxw, hyh⟩ := hin
    have hpp : c.put_pixel x y col =
        ⟨c.buf.set (y.toNat * c.width + x.toNat) col, c.size⟩ := by
      unfold Canvas.put_pixel
      rw [if_neg (by omega), if_neg (by omega)]
    have hpi : pixelIndex c x y = some (y.toNat * c.width + x.toNat) := by
      unfold pixelIndex
      rw [if_pos ⟨hx0, hy0, hxw, hyh⟩]
    have hidx := index_lt_of_inbounds c x y hlen hxw hyh
    rw [hpp, hpi]
    simp only [List.getElem?_set, Option.some.injEq]
    by_cases hij : y.toNat * c.width + x.toNat = i
    · rw [if_pos hij, if_pos hidx, if_pos hij]
    · rw [if_neg hij, if_neg hij]
  · have hpp : c.put_pixel x y col = c := by
      unfold Canvas.put_pixel
      split_ifs with h1 h2
      · rfl
      · rfl
      · exact absurd ⟨by omega, by omega, by omega, by omega⟩ hin
    have hpi : pixelIndex c x y = none := by
      unfold pixelIndex
      rw [if_neg hin]
    rw [hpp, hpi]
    simp

theorem putPixelChecked_eq (c : Canvas) (x y : ℤ) (col : ℕ)
    (hlen : c.buf.length = c.width * c.height) :
    putPixelChecked c x y col = some (c.put_pixel x y col) := by
  unfold putPixelChecked Canvas.put_pixel
  split_ifs with h1 h2 h3
  · rfl
  · rfl
  · rfl
  · exact absurd (index_lt_of_inbounds c x y hlen (by omega) (by omega)) h3

/-! ### The `plot` fold: preservation, pixel characterization, checked form -/

theorem plot_cons (c : Canvas) (p : ℤ × ℤ) (ps : List (ℤ × ℤ)) (col : ℕ) :
    plot c (p :: ps) col = plot (c.put_pixel p.1 p.2 col) ps col := rfl

theorem plot_append (c : Canvas) (l1 l2 : List (ℤ × ℤ)) (col : ℕ) :
    plot c (l1 ++ l2) col = plot (plot c l1 col) l2 col := by
  unfold plot
  rw [List.foldl_append]

theorem plot_size (c : Canvas) (ps : List (ℤ × ℤ)) (col : ℕ) :
    (plot c ps col).size = c.size := by
  induction ps generalizing c with
  | nil => rfl
  | cons p ps ih => rw [plot_cons, ih, put_pixel_size]

theorem plot_length (c : Canvas) (ps : List (ℤ × ℤ)) (col : ℕ) :
    (plot c ps col).buf.length = c.buf.length := by
  induction ps generalizing c with
  | nil => rfl
  | cons p ps ih => rw [plot_cons, ih, put_pixel_length]

theorem plot_get? (ps : List (ℤ × ℤ)) (c : Canvas) (col : ℕ) (i : ℕ)
    (hlen : c.buf.length = c.width * c.height) :
    (plot c ps col).buf[i]? =
      if ∃ p ∈ ps, pixelIndex c p.1 p.2 = some i then some col
      else c.buf[i]? := by
  induction ps generalizing c with
  | nil => simp [plot]
  | cons p ps ih =>
    have hlen2 : (c.put_pixel p.1 p.2 col).buf.length =
        (c.put_pixel p.1 p.2 col).width * (c.put_pixel p.1 p.2 col).height := by
      unfold Canvas.width Canvas.height
      rw [put_pixel_length, put_pixel_size]
      exact hlen
    rw [plot_cons, ih _ hlen2]
    have hpc : ∀ a b : ℤ, pixelIndex (c.put_pixel p.1 p.2 col) a b =
        pixelIndex c a b :=
      fun a b => pixelIndex_congr _ _ (put_pixel_size c p.1 p.2 col) a b
    by_cases hex : ∃ q ∈ ps, pixelIndex c q.1 q.2 = some i
    · rw [if_pos (by simpa [hpc] using hex),
        if_pos ⟨hex.choose, List.mem_cons_of_mem _ hex.choose_spec.1,
          hex.choose_spec.2⟩]
    · rw [if_neg (by simpa [hpc] using hex), put_pixel_get? _ _ _ _ _ hlen]
      by_cases hp : pixelIndex c p.1 p.2 = some i
      · rw [if_pos hp, if_pos ⟨p, List.mem_cons_self p ps, hp⟩]
      · rw [if_neg hp, if_neg (by
          rintro ⟨q, hq, hqi⟩
          rcases List.mem_cons.1 hq with rfl | hq2
          · exact hp hqi
          · exact hex ⟨q, hq2, hqi⟩)]

theorem plotChecked_eq (ps : List (ℤ × ℤ)) (c : Canvas) (col : ℕ)
    (hlen : c.buf.length = c.width * c.height) :
    plotChecked c ps col = some (plot c ps col) := by
  induction ps generalizing c with
  | nil => rfl
  | cons p ps ih =>
    have hlen2 : (c.put_pixel p.1 p.2 col).buf.length =
        (c.put_pixel p.1 p.2 col).width * (c.put_pixel p.1 p.2 col).height := by
      unfold Canvas.width Canvas.height
      rw [put_pixel_length, put_pixel_size]
      exact hlen
    unfold plotChecked at ih ⊢
    rw [List.foldlM_cons, putPixelChecked_eq _ _ _ _ hlen]
    simpa [plot_cons] using ih _ hlen2

/-! ### Membership in the circle point lists -/

theorem mem_offsetRange (r z : ℤ) : z ∈ offsetRange r ↔ -r ≤ z ∧ z ≤ r := by
  unfold offsetRange
  rw [List.mem_map]
  constructor
  · rintro ⟨k, hk, rfl⟩
    rw [List.mem_range] at hk
    omega
  · rintro ⟨h1, h2⟩
    refine ⟨(z + r).toNat, ?_, ?_⟩
    · rw [List.mem_range]
      omega
    · omega

theorem mem_circleOffsets (r : ℤ) (p : ℤ × ℤ) :
    p ∈ circleOffsets r ↔ 0 ≤ r ∧ p.1 * p.1 + p.2 * p.2 ≤ r * r := by
  unfold circleOffsets
  simp only [List.mem_flatMap, List.mem_map, List.mem_filter, mem_offsetRange,
    decide_eq_true_eq]
  constructor
  · rintro ⟨dy, ⟨hdy1, hdy2⟩, dx, ⟨⟨hdx1, hdx2⟩, hsum⟩, rfl⟩
    exact ⟨by omega, hsum⟩
  · rintro ⟨hr, hsum⟩
    refine ⟨p.2, ⟨?_, ?_⟩, p.1, ⟨⟨?_, ?_⟩, hsum⟩, rfl⟩
    · nlinarith [mul_self_nonneg p.1]
    · nlinarith [mul_self_nonneg p.1]
    · nlinarith [mul_self_nonneg p.2]
    · nlinarith [mul_self_nonneg p.2]

theorem circleOffsets_of_neg (r : ℤ) (hr : r < 0) : circleOffsets r = [] := by
  have h0 : offsetRange r = [] := by
    unfold offsetRange
    have : (2 * r + 1).toNat = 0 := by omega
    rw [this]
    rfl
  unfold circleOffsets
  rw [h0]
  rfl

theorem circle_cover_iff (c : Canvas) (center : Point) (r : ℤ) (i : ℕ) :
    (∃ p ∈ circlePoints center r, pixelIndex c p.1 p.2 = some i) ↔
      (0 ≤ r ∧ ∃ dx dy : ℤ, dx * dx + dy * dy ≤ r * r ∧
        pixelIndex c (center.x + dx) (center.y + dy) = some i) := by
  unfold circlePoints
  simp only [List.mem_map]
  constructor
  · rintro ⟨p, ⟨d, hd, rfl⟩, hpi⟩
    rw [mem_circleOffsets] at hd
    exact ⟨hd.1, d.1, d.2, hd.2, hpi⟩
  · rintro ⟨hr, dx, dy, hsum, hpi⟩
    exact ⟨(center.x + dx, center.y + dy),
      ⟨(dx, dy), (mem_circleOffsets r (dx, dy)).2 ⟨hr, hsum⟩, rfl⟩, hpi⟩

/-! ### `draw_filled_circle`: preservation and pixel characterization -/

theorem draw_filled_circle_size (c : Canvas) (center : Point) (r : ℤ)
    (col : ℕ) : (c.draw_filled_circle center r col).size = c.size :=
  plot_size c _ col

theorem draw_filled_circle_length (c : Canvas) (center : Point) (r : ℤ)
    (col : ℕ) :
    (c.draw_filled_circle center r col).buf.length = c.buf.length :=
  plot_length c _ col

theorem draw_filled_circle_get? (c : Canvas) (center : Point) (r : ℤ)
    (col : ℕ) (i : ℕ) (hlen : c.buf.length = c.width * c.height) :
    (c.draw_filled_circle center r col).buf[i]? =
      if ∃ p ∈ circlePoints center r, pixelIndex c p.1 p.2 = some i
      then some col else c.buf[i]? :=
  plot_get? _ c col i hlen

theorem drawFilledCircleChecked_eq (c : Canvas) (center : Point) (r : ℤ)
    (col : ℕ) (hlen : c.buf.length = c.width * c.height) :
    drawFilledCircleChecked c center r col =
      some (c.draw_filled_circle center r col) :=
  plotChecked_eq _ c col hlen

/-! ### `draw_line` as a single plot, and its checked form -/

theorem foldl_plot_flatMap (f : Point → List (ℤ × ℤ)) (col : ℕ) :
    ∀ (L : List Point) (c : Canvas),
      L.foldl (fun cv p => plot cv (f p) col) c = plot c (L.flatMap f) col := by
  intro L
  induction L with
  | nil => intro c; rfl
  | cons p L ih =>
    intro c
    rw [List.foldl_cons, ih, List.flatMap_cons, plot_append]

theorem draw_line_eq_plot (c : Canvas) (a b : Point) (t : ℤ) (col : ℕ) :
    c.draw_line a b t col =
      plot c ((bresenhamWalk a b).flatMap
        (fun p => circlePoints p (Int.tdiv t 2))) col :=
  foldl_plot_flatMap _ col (bresenhamWalk a b) c

theorem draw_line_size (c : Canvas) (a b : Point) (t : ℤ) (col : ℕ) :
    (c.draw_line a b t col).size = c.size := by
  rw [draw_line_eq_plot]
  exact plot_size c _ col

theorem draw_line_length (c : Canvas) (a b : Point) (t : ℤ) (col : ℕ) :
    (c.draw_line a b t col).buf.length = c.buf.length := by
  rw [draw_line_eq_plot]
  exact plot_length c _ col

theorem line_cover_iff (c : Canvas) (a b : Point) (rad : ℤ) (i : ℕ) :
    (∃ q ∈ (bresenhamWalk a b).flatMap (fun p => circlePoints p rad),
        pixelIndex c q.1 q.2 = some i) ↔
      (0 ≤ rad ∧ ∃ p ∈ bresenhamWalk a b, ∃ dx dy : ℤ,
        dx * dx + dy * dy ≤ rad * rad ∧
        pixelIndex c (p.x + dx) (p.y + dy) = some i) := by
  constructor
  · rintro ⟨q, hq, hqi⟩
    rw [List.mem_flatMap] at hq
    obtain ⟨p, hp, hqp⟩ := hq
    have hcc := (circle_cover_iff c p rad i).1 ⟨q, hqp, hqi⟩
    obtain ⟨hr, dx, dy, hsum, hpi⟩ := hcc
    exact ⟨hr, p, hp, dx, dy, hsum, hpi⟩
  · rintro ⟨hr, p, hp, dx, dy, hsum, hpi⟩
    obtain ⟨q, hqp, hqi⟩ := (circle_cover_iff c p rad i).2 ⟨hr, dx, dy, hsum, hpi⟩
    exact ⟨q, List.mem_flatMap.2 ⟨p, hp, hqp⟩, hqi⟩

theorem draw_line_get?_covered (c : Canvas) (a b : Point) (t : ℤ) (col : ℕ)
    (i : ℕ) (hlen : c.buf.length = c.width * c.height)
    (h : 0 ≤ Int.tdiv t 2 ∧ ∃ p ∈ bresenhamWalk a b, ∃ dx dy : ℤ,
      dx * dx + dy * dy ≤ Int.tdiv t 2 * Int.tdiv t 2 ∧
      pixelIndex c (p.x + dx) (p.y + dy) = some i) :
    (c.draw_line a b t col).buf[i]? = some col := by
  rw [draw_line_eq_plot, plot_get? _ c col i hlen,
    if_pos ((line_cover_iff c a b (Int.tdiv t 2) i).2 h)]

theorem draw_line_get?_uncovered (c : Canvas) (a b : Point) (t : ℤ) (col : ℕ)
    (i : ℕ) (hlen : c.buf.length = c.width * c.height)
    (h : ¬ (0 ≤ Int.tdiv t 2 ∧ ∃ p ∈ bresenhamWalk a b, ∃ dx dy : ℤ,
      dx * dx + dy * dy ≤ Int.tdiv t 2 * Int.tdiv t 2 ∧
      pixelIndex c (p.x + dx) (p.y + dy) = some i)) :
    (c.draw_line a b t col).buf[i]? = c.buf[i]? := by
  rw [draw_line_eq_plot, plot_get? _ c col i hlen,
    if_neg (fun hc => h ((line_cover_iff c a b (Int.tdiv t 2) i).1 hc))]

theorem foldlM_circle_eq (rad : ℤ) (col : ℕ) : ∀ (L : List Point) (c : Canvas),
    c.buf.length = c.width * c.height →
    L.foldlM (fun cv p => drawFilledCircleChecked cv p rad col) c =
      some (L.foldl (fun cv p => cv.draw_filled_circle p rad col) c) := by
  intro L
  induction L with
  | nil => intro c _; rfl
  | cons p L ih =>
    intro c hlen
    have hlen2 : (c.draw_filled_circle p rad col).buf.length =
        (c.draw_filled_circle p rad col).width *
          (c.draw_filled_circle p rad col).height := by
      unfold Canvas.width Canvas.height
      rw [draw_filled_circle_length, draw_filled_circle_size]
      exact hlen
    rw [List.foldlM_cons, drawFilledCircleChecked_eq _ _ _ _ hlen]
    simpa using ih _ hlen2

theorem drawLineChecked_eq (c : Canvas) (a b : Point) (t : ℤ) (col : ℕ)
    (hlen : c.buf.length = c.width * c.height) :
    drawLineChecked c a b t col = some (c.draw_line a b t col) :=
  foldlM_circle_eq _ col (bresenhamWalk a b) c hlen

/-! ### Correctness of the Bresenham walk (claim C7 machinery)

The loop state after `i` x-steps and `j` y-steps is
`x0 = ax + sx*i`, `y0 = ay + sy*j`, `err = (j+1)*D - (i+1)*E`
(written `j*D - i*E + (D - E)` below), where `D = |Δx|`, `E = |Δy|`.
The invariant `-(max D E) ≤ 2*(j*D - i*E) ≤ max D E` forces the major
axis to step every iteration and forbids overshooting, so the loop
reaches the endpoint in exactly `max D E` iterations. -/

theorem lineLoop_succ (x1 y1 dx dy sx sy : ℤ) (n : ℕ) (x0 y0 err : ℤ) :
    lineLoop x1 y1 dx dy sx sy (n + 1) x0 y0 err =
      ⟨x0, y0⟩ ::
        (if x0 = x1 ∧ y0 = y1 then []
         else lineLoop x1 y1 dx dy sx sy n
           (if dy ≤ 2 * err then x0 + sx else x0)
           (if 2 * err ≤ dx then y0 + sy else y0)
           (if 2 * err ≤ dx then
              (if dy ≤ 2 * err then err + dy else err) + dx
            else (if dy ≤ 2 * err then err + dy else err))) := rfl

theorem lineLoop_spec (ax ay bx bY sx sy D E : ℤ)
    (hD : 0 ≤ D) (hE : 0 ≤ E)
    (hsx : sx = 1 ∨ sx = -1) (hsy : sy = 1 ∨ sy = -1)
    (hbx : bx = ax + sx * D) (hbY : bY = ay + sy * E) :
    ∀ m : ℕ, ∀ i j : ℤ, 0 ≤ i → i ≤ D → 0 ≤ j → j ≤ E →
      -(max D E) ≤ 2 * (j * D - i * E) → 2 * (j * D - i * E) ≤ max D E →
      (m : ℤ) = max D E - max i j →
      (∀ k : ℕ, lineLoop bx bY D (-E) sx sy (m + 1 + k)
          (ax + sx * i) (ay + sy * j) (j * D - i * E + (D - E)) =
        lineLoop bx bY D (-E) sx sy (m + 1)
          (ax + sx * i) (ay + sy * j) (j * D - i * E + (D - E))) ∧
      ∃ pre : List Point,
        lineLoop bx bY D (-E) sx sy (m + 1)
          (ax + sx * i) (ay + sy * j) (j * D - i * E + (D - E)) =
          pre ++ [⟨bx, bY⟩] ∧ pre.length = m := by
  intro m
  induction m with
  | zero =>
    intro i j hi0 hiD hj0 hjE hw1 hw2 hm
    have hij : i = D ∧ j = E := by
      rcases le_total E D with hDE | hED
      · have hmax : max D E = D := by omega
        rw [hmax] at hw1 hw2 hm
        have hior : i = D ∨ j = D := by omega
        rcases hior with h1 | h1
        · refine ⟨h1, ?_⟩
          by_contra hnej
          have hjE2 : j ≤ E - 1 := by omega
          rw [h1] at hw1
          have hmul : D * (j - E) ≤ D * (-1) :=
            mul_le_mul_of_nonneg_left (by omega) hD
          have hD0 : D ≤ 0 := by nlinarith
          omega
        · have hED2 : E = D := by omega
          have hj2 : j = E := by omega
          refine ⟨?_, hj2⟩
          by_contra hnei
          have hiD2 : i ≤ D - 1 := by omega
          rw [hj2, hED2] at hw2
          have hmul : D * 1 ≤ D * (D - i) :=
            mul_le_mul_of_nonneg_left (by omega) hD
          have hD0 : D ≤ 0 := by nlinarith
          omega
      · have hmax : max D E = E := by omega
        rw [hmax] at hw1 hw2 hm
        have hjor : j = E ∨ i = E := by omega
        rcases hjor with h1 | h1
        · refine ⟨?_, h1⟩
          by_contra hnei
          have hiD2 : i ≤ D - 1 := by omega
          rw [h1] at hw2
          have hmul : E * 1 ≤ E * (D - i) :=
            mul_le_mul_of_nonneg_left (by omega) hE
          have hE0 : E ≤ 0 := by nlinarith
          omega
        · have hDE2 : D = E := by omega
          have hi2 : i = D := by omega
          refine ⟨hi2, ?_⟩
          by_contra hnej
          have hjE2 : j ≤ E - 1 := by omega
          rw [hi2, ← hDE2] at hw1
          have hmul : D * (j - E) ≤ D * (-1) :=
            mul_le_mul_of_nonneg_left (by omega) hD
          have hD0 : D ≤ 0 := by nlinarith
          omega
    rw [hij.1, hij.2, ← hbx, ← hbY]
    constructor
    · intro k
      have h1 : 0 + 1 + k = k + 1 := by omega
      rw [h1, lineLoop_succ, if_pos ⟨rfl, rfl⟩, lineLoop_succ,
        if_pos ⟨rfl, rfl⟩]
    · exact ⟨[], by rw [lineLoop_succ, if_pos ⟨rfl, rfl⟩]; rfl, rfl⟩
  | succ m ih =>
    intro i j hi0 hiD hj0 hjE hw1 hw2 hm
    have hnotfin : ¬ (i = D ∧ j = E) := by
      rintro ⟨rfl, rfl⟩
      omega
    have hne : ¬ (ax + sx * i = bx ∧ ay + sy * j = bY) := by
      rintro ⟨h1, h2⟩
      apply hnotfin
      constructor
      · rw [hbx] at h1
        rcases hsx with h | h <;> (rw [h] at h1; omega)
      · rw [hbY] at h2
        rcases hsy with h | h <;> (rw [h] at h2; omega)
    rcases le_total E D with hDE | hED
    · -- x-major octants: the x branch fires every iteration
      have hmax : max D E = D := by omega
      rw [hmax] at hw1 hw2 hm
      have hxf : -E ≤ 2 * (j * D - i * E + (D - E)) := by linarith
      have hiD2 : i < D := by
        rcases eq_or_lt_of_le hiD with h1 | h1
        · exfalso
          have hjE2 : j ≤ E - 1 := by
            rcases eq_or_lt_of_le hjE with h2 | h2
            · exact absurd ⟨h1, h2⟩ hnotfin
            · omega
          rw [h1] at hw1
          have hmul : D * (j - E) ≤ D * (-1) :=
            mul_le_mul_of_nonneg_left (by omega) hD
          have hD0 : D ≤ 0 := by nlinarith
          omega
        · exact h1
      by_cases hyf : 2 * (j * D - i * E + (D - E)) ≤ D
      · -- both branches fire
        have hjE2 : j < E := by
          rcases eq_or_lt_of_le hjE with h2 | h2
          · exfalso
            rw [h2] at hyf
            have hmul : E * 1 ≤ E * (D - i) :=
              mul_le_mul_of_nonneg_left (by omega) hE
            have hD0 : D ≤ 0 := by nlinarith
            omega
          · exact h2
        have hw1n : -D ≤ 2 * ((j + 1) * D - (i + 1) * E) := by linarith
        have hw2n : 2 * ((j + 1) * D - (i + 1) * E) ≤ D := by linarith
        have hmn : (m : ℤ) = max D E - max (i + 1) (j + 1) := by
          rw [hmax]; omega
        obtain ⟨ihk, pre, hpre, hlenp⟩ :=
          ih (i + 1) (j + 1) (by omega) (by omega) (by omega) (by omega)
            (by rw [hmax]; exact hw1n) (by rw [hmax]; exact hw2n) hmn
        have hstep : ∀ fuel : ℕ, lineLoop bx bY D (-E) sx sy (fuel + 1)
            (ax + sx * i) (ay + sy * j) (j * D - i * E + (D - E)) =
            ⟨ax + sx * i, ay + sy * j⟩ :: lineLoop bx bY D (-E) sx sy fuel
              (ax + sx * (i + 1)) (ay + sy * (j + 1))
              ((j + 1) * D - (i + 1) * E + (D - E)) := by
          intro fuel
          rw [lineLoop_succ bx bY D (-E) sx sy fuel, if_neg hne]
          simp only [if_pos hxf, if_pos hyf]
          have e1 : ax + sx * i + sx = ax + sx * (i + 1) := by ring
          have e2 : ay + sy * j + sy = ay + sy * (j + 1) := by ring
          have e3 : j * D - i * E + (D - E) + -E + D =
              (j + 1) * D - (i + 1) * E + (D - E) := by ring
          rw [e1, e2, e3]
        constructor
        · intro k
          have h1 : m + 1 + 1 + k = (m + 1 + k) + 1 := by omega
          rw [h1, hstep, hstep, ihk k]
        · refine ⟨⟨ax + sx * i, ay + sy * j⟩ :: pre, ?_, ?_⟩
          · rw [hstep, hpre, List.cons_append]
          · simp [hlenp]
      · -- only the x branch fires
        have hji : j ≤ i := by
          by_contra hcon
          push_neg at hcon
          have hmul : 1 * D ≤ (j - i) * D :=
            mul_le_mul_of_nonneg_right (by omega) hD
          have hmul2 : i * E ≤ i * D := mul_le_mul_of_nonneg_left hDE hi0
          have hD0 : D ≤ 0 := by nlinarith
          omega
        have hw1n : -D ≤ 2 * (j * D - (i + 1) * E) := by linarith
        have hw2n : 2 * (j * D - (i + 1) * E) ≤ D := by linarith
        have hmn : (m : ℤ) = max D E - max (i + 1) j := by
          rw [hmax]; omega
        obtain ⟨ihk, pre, hpre, hlenp⟩ :=
          ih (i + 1) j (by omega) (by omega) (by omega) (by omega)
            (by rw [hmax]; exact hw1n) (by rw [hmax]; exact hw2n) hmn
        have hstep : ∀ fuel : ℕ, lineLoop bx bY D (-E) sx sy (fuel + 1)
            (ax + sx * i) (ay + sy * j) (j * D - i * E + (D - E)) =
            ⟨ax + sx * i, ay + sy * j⟩ :: lineLoop bx bY D (-E) sx sy fuel
              (ax + sx * (i + 1)) (ay + sy * j)
              (j * D - (i + 1) * E + (D - E)) := by
          intro fuel
          rw [lineLoop_succ bx bY D (-E) sx sy fuel, if_neg hne]
          simp only [if_pos hxf, if_neg hyf]
          have e1 : ax + sx * i + sx = ax + sx * (i + 1) := by ring
          have e3 : j * D - i * E + (D - E) + -E =
              j * D - (i + 1) * E + (D - E) := by ring
          rw [e1, e3]
        constructor
        · intro k
          have h1 : m + 1 + 1 + k = (m + 1 + k) + 1 := by omega
          rw [h1, hstep, hstep, ihk k]
        · refine ⟨⟨ax + sx * i, ay + sy * j⟩ :: pre, ?_, ?_⟩
          · rw [hstep, hpre, List.cons_append]
          · simp [hlenp]
    · -- y-major octants: the y branch fires every iteration
      have hmax : max D E = E := by omega
      rw [hmax] at hw1 hw2 hm
      have hyf : 2 * (j * D - i * E + (D - E)) ≤ D := by linarith
      have hjE2 : j < E := by
        rcases eq_or_lt_of_le hjE with h1 | h1
        · exfalso
          have hiD3 : i ≤ D - 1 := by
            rcases eq_or_lt_of_le hiD with h2 | h2
            · exact absurd ⟨h2, h1⟩ hnotfin
            · omega
          rw [h1] at hw2
          have hmul : E * 1 ≤ E * (D - i) :=
            mul_le_mul_of_nonneg_left (by omega) hE
          have hE0 : E ≤ 0 := by nlinarith
          omega
        · exact h1
      by_cases hxf : -E ≤ 2 * (j * D - i * E + (D - E))
      · -- both branches fire
        have hiD2 : i < D := by
          rcases eq_or_lt_of_le hiD with h1 | h1
          · exfalso
            rw [h1] at hxf
            have hmul : D * (j - E) ≤ D * (-1) :=
              mul_le_mul_of_nonneg_left (by omega) hD
            have hE0 : E ≤ 0 := by nlinarith
            omega
          · exact h1
        have hw1n : -E ≤ 2 * ((j + 1) * D - (i + 1) * E) := by linarith
        have hw2n : 2 * ((j + 1) * D - (i + 1) * E) ≤ E := by linarith
        have hmn : (m : ℤ) = max D E - max (i + 1) (j + 1) := by
          rw [hmax]; omega
        obtain ⟨ihk, pre, hpre, hlenp⟩ :=
          ih (i + 1) (j + 1) (by omega) (by omega) (by omega) (by omega)
            (by rw [hmax]; exact hw1n) (by rw [hmax]; exact hw2n) hmn
        have hstep : ∀ fuel : ℕ, lineLoop bx bY D (-E) sx sy (fuel + 1)
            (ax + sx * i) (ay + sy * j) (j * D - i * E + (D - E)) =
            ⟨ax + sx * i, ay + sy * j⟩ :: lineLoop bx bY D (-E) sx sy fuel
              (ax + sx * (i + 1)) (ay + sy * (j + 1))
              ((j + 1) * D - (i + 1) * E + (D - E)) := by
          intro fuel
          rw [lineLoop_succ bx bY D (-E) sx sy fuel, if_neg hne]
          simp only [if_pos hxf, if_pos hyf]
          have e1 : ax + sx * i + sx = ax + sx * (i + 1) := by ring
          have e2 : ay + sy * j + sy = ay + sy * (j + 1) := by ring
          have e3 : j * D - i * E + (D - E) + -E + D =
              (j + 1) * D - (i + 1) * E + (D - E) := by ring
          rw [e1, e2, e3]
        constructor
        · intro k
          have h1 : m + 1 + 1 + k = (m + 1 + k) + 1 := by omega
          rw [h1, hstep, hstep, ihk k]
        · refine ⟨⟨ax + sx * i, ay + sy * j⟩ :: pre, ?_, ?_⟩
          · rw [hstep, hpre, List.cons_append]
          · simp [hlenp]
      · -- only the y branch fires
        have hij2 : i ≤ j := by
          by_contra hcon
          push_neg at hcon
          have hmul : (j + 1) * E ≤ i * E :=
            mul_le_mul_of_nonneg_right (by omega) hE
          have hmul2 : j * D ≤ j * E := mul_le_mul_of_nonneg_left hED hj0
          have hE0 : E ≤ 0 := by nlinarith
          omega
        have hw1n : -E ≤ 2 * ((j + 1) * D - i * E) := by linarith
        have hw2n : 2 * ((j + 1) * D - i * E) ≤ E := by linarith
        have hmn : (m : ℤ) = max D E - max i (j + 1) := by
          rw [hmax]; omega
        obtain ⟨ihk, pre, hpre, hlenp⟩ :=
          ih i (j + 1) (by omega) (by omega) (by omega) (by omega)
            (by rw [hmax]; exact hw1n) (by rw [hmax]; exact hw2n) hmn
        have hstep : ∀ fuel : ℕ, lineLoop bx bY D (-E) sx sy (fuel + 1)
            (ax + sx * i) (ay + sy * j) (j * D - i * E + (D - E)) =
            ⟨ax + sx * i, ay + sy * j⟩ :: lineLoop bx bY D (-E) sx sy fuel
              (ax + sx * i) (ay + sy * (j + 1))
              ((j + 1) * D - i * E + (D - E)) := by
          intro fuel
          rw [lineLoop_succ bx bY D (-E) sx sy fuel, if_neg hne]
          simp only [if_neg hxf, if_pos hyf]
          have e2 : ay + sy * j + sy = ay + sy * (j + 1) := by ring
          have e3 : j * D - i * E + (D - E) + D =
              (j + 1) * D - i * E + (D - E) := by ring
          rw [e2, e3]
        constructor
        · intro k
          have h1 : m + 1 + 1 + k = (m + 1 + k) + 1 := by omega
          rw [h1, hstep, hstep, ihk k]
        · refine ⟨⟨ax + sx * i, ay + sy * j⟩ :: pre, ?_, ?_⟩
          · rw [hstep, hpre, List.cons_append]
          · simp [hlenp]

theorem bresenhamWalk_spec (a b : Point) :
    (∀ k : ℕ, lineLoop b.x b.y |b.x - a.x| (-|b.y - a.y|)
        (if a.x < b.x then (1 : ℤ) else -1) (if a.y < b.y then (1 : ℤ) else -1)
        (max (b.x - a.x).natAbs (b.y - a.y).natAbs + 1 + k)
        a.x a.y (|b.x - a.x| + -|b.y - a.y|) = bresenhamWalk a b) ∧
    ∃ pre : List Point, bresenhamWalk a b = pre ++ [b] ∧
      pre.length = max (b.x - a.x).natAbs (b.y - a.y).natAbs := by
  have hD : (0 : ℤ) ≤ |b.x - a.x| := abs_nonneg _
  have hE : (0 : ℤ) ≤ |b.y - a.y| := abs_nonneg _
  have hsx : (if a.x < b.x then (1 : ℤ) else -1) = 1 ∨
      (if a.x < b.x then (1 : ℤ) else -1) = -1 := by
    by_cases h : a.x < b.x <;> simp [h]
  have hsy : (if a.y < b.y then (1 : ℤ) else -1) = 1 ∨
      (if a.y < b.y then (1 : ℤ) else -1) = -1 := by
    by_cases h : a.y < b.y <;> simp [h]
  have hbx : b.x = a.x + (if a.x < b.x then (1 : ℤ) else -1) * |b.x - a.x| := by
    by_cases h : a.x < b.x
    · rw [if_pos h, abs_of_nonneg (by omega)]; ring
    · rw [if_neg h, abs_of_nonpos (by omega)]; ring
  have hbY : b.y = a.y + (if a.y < b.y then (1 : ℤ) else -1) * |b.y - a.y| := by
    by_cases h : a.y < b.y
    · rw [if_pos h, abs_of_nonneg (by omega)]; ring
    · rw [if_neg h, abs_of_nonpos (by omega)]; ring
  have hz : (2 : ℤ) * (0 * |b.x - a.x| - 0 * |b.y - a.y|) = 0 := by ring
  have hmain := lineLoop_spec a.x a.y b.x b.y _ _ |b.x - a.x| |b.y - a.y|
    hD hE hsx hsy hbx hbY
    (max (b.x - a.x).natAbs (b.y - a.y).natAbs) 0 0
    le_rfl hD le_rfl hE
    (by rw [hz]; omega) (by rw [hz]; omega)
    (by rw [Nat.cast_max, Int.natCast_natAbs, Int.natCast_natAbs]; omega)
  have harg1 : a.x + (if a.x < b.x then (1 : ℤ) else -1) * 0 = a.x := by ring
  have harg2 : a.y + (if a.y < b.y then (1 : ℤ) else -1) * 0 = a.y := by ring
  have harg3 : (0 : ℤ) * |b.x - a.x| - 0 * |b.y - a.y| +
      (|b.x - a.x| - |b.y - a.y|) = |b.x - a.x| + -|b.y - a.y| := by ring
  rw [harg1, harg2, harg3] at hmain
  obtain ⟨hk, pre, hpre, hlen⟩ := hmain
  have hwalk : bresenhamWalk a b = lineLoop b.x b.y |b.x - a.x| (-|b.y - a.y|)
      (if a.x < b.x then (1 : ℤ) else -1) (if a.y < b.y then (1 : ℤ) else -1)
      (max (b.x - a.x).natAbs (b.y - a.y).natAbs + 1)
      a.x a.y (|b.x - a.x| + -|b.y - a.y|) := rfl
  constructor
  · intro k
    rw [hwalk]
    exact hk k
  · exact ⟨pre, by rw [hwalk]; exact hpre, hlen⟩

theorem bresenhamWalk_length (a b : Point) :
    (bresenhamWalk a b).length =
      max (b.x - a.x).natAbs (b.y - a.y).natAbs + 1 := by
  obtain ⟨_, pre, hpre, hlen⟩ := bresenhamWalk_spec a b
  rw [hpre]
  simp [hlen]

theorem bresenhamWalk_getLast? (a b : Point) :
    (bresenhamWalk a b).getLast? = some b := by
  obtain ⟨_, pre, hpre, _⟩ := bresenhamWalk_spec a b
  rw [hpre]
  simp

theorem self_mem_bresenhamWalk (a b : Point) : a ∈ bresenhamWalk a b := by
  have hwalk : bresenhamWalk a b = lineLoop b.x b.y |b.x - a.x| (-|b.y - a.y|)
      (if a.x < b.x then (1 : ℤ) else -1) (if a.y < b.y then (1 : ℤ) else -1)
      (max (b.x - a.x).natAbs (b.y - a.y).natAbs + 1)
      a.x a.y (|b.x - a.x| + -|b.y - a.y|) := rfl
  rw [hwalk, lineLoop_succ]
  exact List.mem_cons_self _ _

theorem last_mem_bresenhamWalk (a b : Point) : b ∈ bresenhamWalk a b := by
  obtain ⟨_, pre, hpre, _⟩ := bresenhamWalk_spec a b
  rw [hpre]
  simp

theorem bresenhamWalk_self (a : Point) : bresenhamWalk a a = [a] := by
  obtain ⟨_, pre, hpre, hlen⟩ := bresenhamWalk_spec a a
  have h0 : pre.length = 0 := by
    rw [hlen]
    simp
  rw [hpre, List.length_eq_zero.1 h0]
  rfl

/-! ### Scheduler lemmas -/

theorem wakeLoop_gt (now interval next : ℚ) (hpos : 0 < interval) :
    now < wakeLoop now interval next := by
  induction next using wakeLoop.induct now interval with
  | case1 next hp hlt =>
    rw [wakeLoop, if_pos hp, if_pos hlt]
    exact hlt
  | case2 next hp hlt ih =>
    rw [wakeLoop, if_pos hp, if_neg hlt]
    exact ih
  | case3 next hp => exact absurd hpos hp

theorem wakeLoop_le (now interval next : ℚ) (hpos : 0 < interval) :
    next ≤ now → wakeLoop now interval next ≤ now + interval := by
  induction next using wakeLoop.induct now interval with
  | case1 next hp hlt =>
    intro h
    rw [wakeLoop, if_pos hp, if_pos hlt]
    linarith
  | case2 next hp hlt ih =>
    intro h
    rw [wakeLoop, if_pos hp, if_neg hlt]
    push_neg at hlt
    exact ih (by linarith)
  | case3 next hp => exact absurd hpos hp

theorem wakeLoop_multiple (now interval next : ℚ) (hpos : 0 < interval) :
    ∃ k : ℕ, 1 ≤ k ∧ wakeLoop now interval next = next + k * interval := by
  induction next using wakeLoop.induct now interval with
  | case1 next hp hlt =>
    refine ⟨1, le_rfl, ?_⟩
    rw [wakeLoop, if_pos hp, if_pos hlt]
    push_cast
    ring
  | case2 next hp hlt ih =>
    obtain ⟨k, hk1, hk⟩ := ih
    refine ⟨k + 1, by omega, ?_⟩
    rw [wakeLoop, if_pos hp, if_neg hlt, hk]
    push_cast
    ring
  | case3 next hp => exact absurd hpos hp

theorem frame_duration_pos (fps : ℕ) (h : 1 ≤ fps) : 0 < frame_duration fps := by
  unfold frame_duration
  positivity

theorem clampFps_eq (fps : ℕ) (h1 : MIN_FPS ≤ fps) (h2 : fps ≤ MAX_FPS) :
    clampFps fps = fps := by
  unfold clampFps
  omega

/-! ### Byte-extraction helpers for the color codec -/

theorem testBit_byte_high (x i : ℕ) (hx : x < 256) (hi : 8 ≤ i) :
    x.testBit i = false :=
  Nat.testBit_lt_two_pow (by
    calc x < 256 := hx
      _ = 2 ^ 8 := by norm_num
      _ ≤ 2 ^ i := Nat.pow_le_pow_right (by norm_num) hi)

theorem color_rgb_unfold (r g b : ℕ) :
    color_rgb r g b = r <<< 16 ||| g <<< 8 ||| b := rfl

/-! ### Rate-event helper -/

theorem applyEvents_bounds : ∀ (evs : List RateEvent) (r : ℕ),
    MIN_FPS ≤ r → r ≤ MAX_FPS →
    MIN_FPS ≤ applyEvents r evs ∧ applyEvents r evs ≤ MAX_FPS := by
  intro evs
  induction evs with
  | nil => intro r h1 h2; exact ⟨h1, h2⟩
  | cons e evs ih =>
    intro r h1 h2
    have hstep : MIN_FPS ≤ applyEvent r e ∧ applyEvent r e ≤ MAX_FPS := by
      cases e <;> (simp only [applyEvent, MIN_FPS, MAX_FPS] at *; omega)
    exact ih _ hstep.1 hstep.2

/-! ### Claim theorems -/

/-- C8: starting from `MIN_FPS`, after every sequence of increase/decrease
events the rate stays an integer in `[MIN_FPS, MAX_FPS]`; an increase maps
`r` to `min (r + 2) MAX_FPS` and a decrease maps `r` to
`max (r - 2) MIN_FPS` (Nat subtraction is the saturating subtraction of the
source), and no event produces a value outside the range. -/
theorem c8_rate_clamped : ∀ evs : List RateEvent,
    (MIN_FPS ≤ applyEvents MIN_FPS evs ∧ applyEvents MIN_FPS evs ≤ MAX_FPS) ∧
    (∀ r : ℕ, applyEvent r RateEvent.increase = min (r + 2) MAX_FPS ∧
      applyEvent r RateEvent.decrease = max (r - 2) MIN_FPS) ∧
    (∀ r : ℕ, MIN_FPS ≤ r → r ≤ MAX_FPS → ∀ e : RateEvent,
      MIN_FPS ≤ applyEvent r e ∧ applyEvent r e ≤ MAX_FPS) := by
  intro evs
  refine ⟨applyEvents_bounds evs MIN_FPS le_rfl (by norm_num [MIN_FPS, MAX_FPS]),
    fun r => ⟨rfl, rfl⟩, fun r h1 h2 e => ?_⟩
  cases e <;> (simp only [applyEvent, MIN_FPS, MAX_FPS] at *; omega)

/-- C9: for all channel values below 256, `color_rgb` packs the channels as
`(r <<< 16) ||| (g <<< 8) ||| b` with the top byte 0, the channels
round-trip exactly, and the function is deterministic. -/
theorem c9_color_rgb_roundtrip (r g b : ℕ)
    (hr : r < 256) (hg : g < 256) (hb : b < 256) :
    (color_rgb r g b >>> 16) &&& 255 = r ∧
    (color_rgb r g b >>> 8) &&& 255 = g ∧
    color_rgb r g b &&& 255 = b ∧
    color_rgb r g b >>> 24 = 0 ∧
    (∀ r2 g2 b2 : ℕ, r2 = r → g2 = g → b2 = b →
      color_rgb r2 g2 b2 = color_rgb r g b) := by
  have h255 : (255 : ℕ) = 2 ^ 8 - 1 := by norm_num
  refine ⟨?_, ?_, ?_, ?_, ?_⟩
  · apply Nat.eq_of_testBit_eq
    intro i
    rw [color_rgb_unfold, h255]
    simp only [Nat.testBit_and, Nat.testBit_shiftRight, Nat.testBit_lor,
      Nat.testBit_shiftLeft, Nat.testBit_two_pow_sub_one]
    by_cases hi : i < 8
    · have e1 : (decide (16 ≤ 16 + i) && r.testBit (16 + i - 16)) =
          r.testBit i := by simp
      rw [e1]
      have e2 : (decide (8 ≤ 16 + i) && g.testBit (16 + i - 8)) =
          g.testBit (8 + i) := by
        have hd : decide (8 ≤ 16 + i) = true := decide_eq_true (by omega)
        have hs : 16 + i - 8 = 8 + i := by omega
        rw [hd, hs, Bool.true_and]
      rw [e2]
      have e3 : g.testBit (8 + i) = false :=
        testBit_byte_high g (8 + i) hg (by omega)
      have e4 : b.testBit (16 + i) = false :=
        testBit_byte_high b (16 + i) hb (by omega)
      simp [e3, e4, hi]
    · have e5 : r.testBit i = false := testBit_byte_high r i hr (by omega)
      simp [hi, e5]
  · apply Nat.eq_of_testBit_eq
    intro i
    rw [color_rgb_unfold, h255]
    simp only [Nat.testBit_and, Nat.testBit_shiftRight, Nat.testBit_lor,
      Nat.testBit_shiftLeft, Nat.testBit_two_pow_sub_one]
    by_cases hi : i < 8
    · have e1 : (decide (16 ≤ 8 + i) && r.testBit (8 + i - 16)) = false := by
        have hd : decide (16 ≤ 8 + i) = false := decide_eq_false (by omega)
        rw [hd, Bool.false_and]
      rw [e1]
      have e2 : (decide (8 ≤ 8 + i) && g.testBit (8 + i - 8)) =
          g.testBit i := by
        have hd : decide (8 ≤ 8 + i) = true := decide_eq_true (by omega)
        have hs : 8 + i - 8 = i := by omega
        rw [hd, hs, Bool.true_and]
      rw [e2]
      have e4 : b.testBit (8 + i) = false :=
        testBit_byte_high b (8 + i) hb (by omega)
      simp [e4, hi]
    · have e5 : g.testBit i = false := testBit_byte_high g i hg (by omega)
      simp [hi, e5]
  · apply Nat.eq_of_testBit_eq
    intro i
    rw [color_rgb_unfold, h255]
    simp only [Nat.testBit_and, Nat.testBit_lor, Nat.testBit_shiftLeft,
      Nat.testBit_two_pow_sub_one]
    by_cases hi : i < 8
    · have e1 : (decide (16 ≤ i) && r.testBit (i - 16)) = false := by
        have hd : decide (16 ≤ i) = false := decide_eq_false (by omega)
        rw [hd, Bool.false_and]
      have e2 : (decide (8 ≤ i) && g.testBit (i - 8)) = false := by
        have hd : decide (8 ≤ i) = false := decide_eq_false (by omega)
        rw [hd, Bool.false_and]
      rw [e1, e2]
      simp [hi]
    · have e5 : b.testBit i = false := testBit_byte_high b i hb (by omega)
      simp [hi, e5]
  · apply Nat.eq_of_testBit_eq
    intro i
    rw [color_rgb_unfold]
    simp only [Nat.testBit_shiftRight, Nat.testBit_lor, Nat.testBit_shiftLeft,
      Nat.zero_testBit]
    have e1 : r.testBit (24 + i - 16) = false :=
      testBit_byte_high r _ hr (by omega)
    have e2 : g.testBit (24 + i - 8) = false :=
      testBit_byte_high g _ hg (by omega)
    have e3 : b.testBit (24 + i) = false :=
      testBit_byte_high b _ hb (by omega)
    simp [e1, e2, e3]
  · intro r2 g2 b2 h1 h2 h3
    rw [h1, h2, h3]

/-- Witness for C9 at the background color of the source,
`color_rgb 75 95 100`. -/
theorem c9_witness :
    (color_rgb 75 95 100 >>> 16) &&& 255 = 75 ∧
    (color_rgb 75 95 100 >>> 8) &&& 255 = 95 ∧
    color_rgb 75 95 100 &&& 255 = 100 ∧
    color_rgb 75 95 100 >>> 24 = 0 := by
  have h := c9_color_rgb_roundtrip 75 95 100 (by decide) (by decide) (by decide)
  exact ⟨h.1, h.2.1, h.2.2.1, h.2.2.2.1⟩

/-- C2: on an idle callback at monotonic time `now`: if `now ≥ next_frame`,
exactly one redraw is requested and `next_frame` is advanced by whole frame
intervals of `1/rate` seconds until it exceeds `now` (so afterwards
`now < next_frame ≤ now + 1/rate`); if `now < next_frame`, no redraw is
requested and the state is unchanged; `next_frame` never moves backward. -/
theorem c2_scheduler_catchup (s : App) (now : ℚ)
    (h1 : MIN_FPS ≤ s.fps) (h2 : s.fps ≤ MAX_FPS) :
    (s.next_frame ≤ now →
      (about_to_wait s now).1 = 1 ∧
      (∃ k : ℕ, 1 ≤ k ∧ (about_to_wait s now).2.next_frame =
        s.next_frame + (k : ℚ) * frame_duration s.fps) ∧
      now < (about_to_wait s now).2.next_frame ∧
      (about_to_wait s now).2.next_frame ≤ now + frame_duration s.fps) ∧
    (now < s.next_frame →
      (about_to_wait s now).1 = 0 ∧ (about_to_wait s now).2 = s) ∧
    s.next_frame ≤ (about_to_wait s now).2.next_frame := by
  have hcl : clampFps s.fps = s.fps := clampFps_eq _ h1 h2
  have hpos : 0 < frame_duration (clampFps s.fps) := by
    rw [hcl]
    exact frame_duration_pos _ h1
  by_cases hle : s.next_frame ≤ now
  · have happ : about_to_wait s now =
        (1, ⟨s.start, s.fps,
          wakeLoop now (frame_duration (clampFps s.fps)) s.next_frame⟩) := by
      unfold about_to_wait
      rw [if_pos hle]
    rw [happ]
    refine ⟨fun _ => ⟨rfl, ?_, wakeLoop_gt now _ s.next_frame hpos, ?_⟩,
      fun hlt => absurd hle (not_le.2 hlt), ?_⟩
    · obtain ⟨k, hk1, hk⟩ := wakeLoop_multiple now _ s.next_frame hpos
      refine ⟨k, hk1, ?_⟩
      show wakeLoop now (frame_duration (clampFps s.fps)) s.next_frame =
        s.next_frame + (k : ℚ) * frame_duration s.fps
      rw [hk, hcl]
    · show wakeLoop now (frame_duration (clampFps s.fps)) s.next_frame ≤
        now + frame_duration s.fps
      rw [hcl]
      exact wakeLoop_le now _ s.next_frame (frame_duration_pos _ h1) hle
    · obtain ⟨k, hk1, hk⟩ := wakeLoop_multiple now _ s.next_frame hpos
      have hknn : (0 : ℚ) ≤ (k : ℚ) * frame_duration (clampFps s.fps) := by
        positivity
    -- next_frame only grows
      simp only [hk]
      linarith
  · have happ : about_to_wait s now = (0, s) := by
      unfold about_to_wait
      rw [if_neg hle]
    push_neg at hle
    rw [happ]
    exact ⟨fun hc => absurd hc (not_le.2 hle), fun _ => ⟨rfl, rfl⟩, le_rfl⟩

/-- Witness for C2: the spec's concrete catch-up scenario with
`next_frame = T = 0`, rate 5/s (interval 0.2 s) and `now = T + 1`: exactly
one redraw, and the new `next_frame` lies in `(now, now + 0.2]`. -/
theorem c2_witness :
    (about_to_wait ⟨0, 5, 0⟩ 1).1 = 1 ∧
    (∃ k : ℕ, 1 ≤ k ∧ (about_to_wait ⟨0, 5, 0⟩ 1).2.next_frame =
      0 + (k : ℚ) * frame_duration 5) ∧
    (1 : ℚ) < (about_to_wait ⟨0, 5, 0⟩ 1).2.next_frame ∧
    (about_to_wait ⟨0, 5, 0⟩ 1).2.next_frame ≤ 1 + frame_duration 5 := by
  exact (c2_scheduler_catchup ⟨0, 5, 0⟩ 1 (by norm_num [MIN_FPS])
    (by norm_num [MAX_FPS])).1 (by norm_num)

/-- Counterexample for C3: with rate 1 and a `next_frame` half a second
after the start instant, the newly computed wake time is `start + 3/2`,
which is not a whole-second boundary relative to `start`; the code derives
wake times from the previous `next_frame`, with no alignment to `start`. -/
theorem c3_counterexample :
    (about_to_wait ⟨0, 1, 1/2⟩ (1/2)).2.next_frame = 3/2 ∧
    ¬ ∃ n : ℤ, (about_to_wait ⟨0, 1, 1/2⟩ (1/2)).2.next_frame =
      (0 : ℚ) + (n : ℚ) := by
  have hval : (about_to_wait ⟨0, 1, 1/2⟩ (1/2)).2.next_frame = 3/2 := by
    have happ : about_to_wait ⟨0, 1, 1/2⟩ (1/2) =
        (1, ⟨0, 1, wakeLoop (1/2) (frame_duration (clampFps 1)) (1/2)⟩) := by
      unfold about_to_wait
      rw [if_pos (le_refl _)]
    rw [happ]
    have hc : frame_duration (clampFps 1) = 1 := by
      norm_num [clampFps, frame_duration, MIN_FPS, MAX_FPS]
    rw [hc]
    show wakeLoop (1/2) 1 (1/2) = 3/2
    rw [wakeLoop]
    norm_num
  refine ⟨hval, ?_⟩
  rintro ⟨n, hn⟩
  rw [hval] at hn
  have h3 : (3 : ℚ) = 2 * (n : ℚ) := by linarith
  have h4 : (3 : ℤ) = 2 * n := by exact_mod_cast h3
  omega

/-- C3 (amended): at rate 1 tick/second the scheduler advances the wake
time by a whole number of seconds added to the previous `next_frame`; wake
times are derived from the previous wake, not aligned to the start instant
(the code has no special case for rate 1). -/
theorem c3_rate_one_whole_seconds (s : App) (now : ℚ)
    (hf : s.fps = 1) (h : s.next_frame ≤ now) :
    ∃ k : ℕ, 1 ≤ k ∧
      (about_to_wait s now).2.next_frame = s.next_frame + (k : ℚ) := by
  have happ : about_to_wait s now =
      (1, ⟨s.start, s.fps,
        wakeLoop now (frame_duration (clampFps s.fps)) s.next_frame⟩) := by
    unfold about_to_wait
    rw [if_pos h]
  have hc : frame_duration (clampFps s.fps) = 1 := by
    rw [hf]
    norm_num [clampFps, frame_duration, MIN_FPS, MAX_FPS]
  obtain ⟨k, hk1, hk⟩ := wakeLoop_multiple now 1 s.next_frame (by norm_num)
  refine ⟨k, hk1, ?_⟩
  rw [happ]
  show wakeLoop now (frame_duration (clampFps s.fps)) s.next_frame =
    s.next_frame + (k : ℚ)
  rw [hc, hk]
  ring

/-- Witness for the amended C3: from `next_frame = 0` at `now = 0` with
rate 1, the scheduler adds a whole number of seconds. -/
theorem c3_witness :
    ∃ k : ℕ, 1 ≤ k ∧
      (about_to_wait ⟨0, 1, 0⟩ 0).2.next_frame = 0 + (k : ℚ) :=
  c3_rate_one_whole_seconds ⟨0, 1, 0⟩ 0 rfl le_rfl

/-- C4: for signed coordinates, if `0 ≤ x < width` and `0 ≤ y < height`
then `put_pixel` writes the color to buffer index `y*width + x` (readable
back) and leaves every other index unchanged; otherwise it leaves the
buffer unchanged; in both cases the guarded write stays inside the buffer
(no panic, no wrap), witnessed by the checked variant succeeding. -/
theorem c4_put_pixel_bounds (c : Canvas) (x y : ℤ) (col : ℕ)
    (hlen : c.buf.length = c.width * c.height) :
    ((0 ≤ x ∧ 0 ≤ y ∧ x.toNat < c.width ∧ y.toNat < c.height) →
      (c.put_pixel x y col).buf[y.toNat * c.width + x.toNat]? = some col ∧
      ∀ j : ℕ, j ≠ y.toNat * c.width + x.toNat →
        (c.put_pixel x y col).buf[j]? = c.buf[j]?) ∧
    ((x < 0 ∨ y < 0 ∨ (c.width : ℤ) ≤ x ∨ (c.height : ℤ) ≤ y) →
      c.put_pixel x y col = c) ∧
    putPixelChecked c x y col = some (c.put_pixel x y col) := by
  refine ⟨?_, ?_, putPixelChecked_eq c x y col hlen⟩
  · rintro ⟨hx0, hy0, hxw, hyh⟩
    have hpi : pixelIndex c x y = some (y.toNat * c.width + x.toNat) := by
      unfold pixelIndex
      rw [if_pos ⟨hx0, hy0, hxw, hyh⟩]
    constructor
    · rw [put_pixel_get? c x y col _ hlen, if_pos hpi]
    · intro j hj
      rw [put_pixel_get? c x y col j hlen, if_neg (by
        rw [hpi]
        simp only [Option.some.injEq]
        omega)]
  · intro hout
    unfold Canvas.put_pixel
    split_ifs with hg1 hg2
    · rfl
    · rfl
    · exfalso
      push_neg at hg1 hg2
      rcases hout with h | h | h | h <;> omega

/-- Witness for C4 on a 2×2 canvas: writing pixel (1, 1) sets buffer
index 3 and leaves index 0 unchanged, and the checked write succeeds. -/
theorem c4_witness :
    (Canvas.put_pixel ⟨[0, 0, 0, 0], ⟨2, 2⟩⟩ 1 1 9).buf[3]? = some 9 ∧
    (Canvas.put_pixel ⟨[0, 0, 0, 0], ⟨2, 2⟩⟩ 1 1 9).buf[0]? =
      (⟨[0, 0, 0, 0], ⟨2, 2⟩⟩ : Canvas).buf[0]? ∧
    putPixelChecked ⟨[0, 0, 0, 0], ⟨2, 2⟩⟩ 1 1 9 =
      some (Canvas.put_pixel ⟨[0, 0, 0, 0], ⟨2, 2⟩⟩ 1 1 9) := by
  have h := c4_put_pixel_bounds ⟨[0, 0, 0, 0], ⟨2, 2⟩⟩ 1 1 9 (by decide)
  have hin := h.1 (by decide)
  exact ⟨hin.1, hin.2 0 (by decide), h.2.2⟩

/-- C5: `draw_filled_circle` colors exactly the in-bounds pixels at offsets
`(dx, dy)` from the center with `dx² + dy² ≤ radius²` (for a nonnegative
radius), leaving all other pixels unchanged; a negative radius is a no-op;
radius 0 writes exactly the single center pixel (when in bounds). -/
theorem c5_draw_filled_circle_disk (c : Canvas) (center : Point) (r : ℤ)
    (col : ℕ) (hlen : c.buf.length = c.width * c.height) :
    (∀ i : ℕ, (0 ≤ r ∧ ∃ dx dy : ℤ, dx * dx + dy * dy ≤ r * r ∧
        pixelIndex c (center.x + dx) (center.y + dy) = some i) →
      (c.draw_filled_circle center r col).buf[i]? = some col) ∧
    (∀ i : ℕ, ¬ (0 ≤ r ∧ ∃ dx dy : ℤ, dx * dx + dy * dy ≤ r * r ∧
        pixelIndex c (center.x + dx) (center.y + dy) = some i) →
      (c.draw_filled_circle center r col).buf[i]? = c.buf[i]?) ∧
    (r < 0 → c.draw_filled_circle center r col = c) ∧
    (c.draw_filled_circle center 0 col =
      c.put_pixel center.x center.y col) := by
  refine ⟨?_, ?_, ?_, ?_⟩
  · intro i h
    rw [draw_filled_circle_get? c center r col i hlen,
      if_pos ((circle_cover_iff c center r i).2 h)]
  · intro i h
    rw [draw_filled_circle_get? c center r col i hlen,
      if_neg (fun hc => h ((circle_cover_iff c center r i).1 hc))]
  · intro hr
    unfold Canvas.draw_filled_circle circlePoints
    rw [circleOffsets_of_neg r hr]
    rfl
  · have h0 : circlePoints center 0 = [(center.x, center.y)] := by
      have hoff : circleOffsets 0 = [(0, 0)] := rfl
      unfold circlePoints
      rw [hoff]
      simp
    unfold Canvas.draw_filled_circle
    rw [h0]
    rfl

/-- Witness for C5 on a 3×3 canvas: the radius-1 disk at (1, 1) colors the
pixel above the center (buffer index 1), and radius 0 equals a single
`put_pixel`. -/
theorem c5_witness :
    (Canvas.draw_filled_circle ⟨List.replicate 9 0, ⟨3, 3⟩⟩ ⟨1, 1⟩ 1 7).buf[1]? =
      some 7 ∧
    Canvas.draw_filled_circle ⟨List.replicate 9 0, ⟨3, 3⟩⟩ ⟨1, 1⟩ 0 7 =
      Canvas.put_pixel ⟨List.replicate 9 0, ⟨3, 3⟩⟩ 1 1 7 := by
  have h := c5_draw_filled_circle_disk ⟨List.replicate 9 0, ⟨3, 3⟩⟩ ⟨1, 1⟩ 1 7
    (by decide)
  have h0 := c5_draw_filled_circle_disk ⟨List.replicate 9 0, ⟨3, 3⟩⟩ ⟨1, 1⟩ 0 7
    (by decide)
  exact ⟨h.1 1 ⟨by decide, 0, -1, by decide, by decide⟩, h0.2.2.2⟩

/-- Counterexample for C1: the claim's radius is `max(1, round(t/2))`, so
`draw_line(a, a, 0, c)` should equal `draw_filled_circle(a, 1, c)`; in the
code the radius is the truncating `t / 2` with no minimum, so thickness 0
plots a single pixel, not a radius-1 disk. -/
theorem c1_counterexample :
    Canvas.draw_line ⟨List.replicate 9 0, ⟨3, 3⟩⟩ ⟨1, 1⟩ ⟨1, 1⟩ 0 7 ≠
      Canvas.draw_filled_circle ⟨List.replicate 9 0, ⟨3, 3⟩⟩ ⟨1, 1⟩ 1 7 := by
  decide

/-- C1 (amended): `draw_line` sweeps a filled circle of radius
`thickness / 2` (Rust's truncating division, with no minimum of 1) along
every lattice point of the Bresenham walk from `a` to `b` inclusive, the
radius derived the same way regardless of slope or direction; a pixel is
colored exactly when some walk point covers it with that disk (and the
radius is nonnegative), and `draw_line(a, a, t, c)` equals
`draw_filled_circle(a, t / 2, c)`; thickness 0 and thickness 1 both give
radius 0, a single-pixel stroke. -/
theorem c1_draw_line_sweep (c : Canvas) (a b : Point) (t : ℤ) (col : ℕ)
    (hlen : c.buf.length = c.width * c.height) :
    (∀ i : ℕ, (0 ≤ Int.tdiv t 2 ∧ ∃ p ∈ bresenhamWalk a b, ∃ dx dy : ℤ,
        dx * dx + dy * dy ≤ Int.tdiv t 2 * Int.tdiv t 2 ∧
        pixelIndex c (p.x + dx) (p.y + dy) = some i) →
      (c.draw_line a b t col).buf[i]? = some col) ∧
    (∀ i : ℕ, ¬ (0 ≤ Int.tdiv t 2 ∧ ∃ p ∈ bresenhamWalk a b, ∃ dx dy : ℤ,
        dx * dx + dy * dy ≤ Int.tdiv t 2 * Int.tdiv t 2 ∧
        pixelIndex c (p.x + dx) (p.y + dy) = some i) →
      (c.draw_line a b t col).buf[i]? = c.buf[i]?) ∧
    (c.draw_line a a t col = c.draw_filled_circle a (Int.tdiv t 2) col) ∧
    Int.tdiv 0 2 = 0 ∧ Int.tdiv 1 2 = 0 := by
  refine ⟨fun i h => draw_line_get?_covered c a b t col i hlen h,
    fun i h => draw_line_get?_uncovered c a b t col i hlen h, ?_, rfl, rfl⟩
  unfold Canvas.draw_line
  rw [bresenhamWalk_self]
  rfl

/-- Witness for the amended C1 on a 3×3 canvas: a degenerate line at
(1, 1) with thickness 2 (radius 1) colors the pixel above the center. -/
theorem c1_witness :
    (Canvas.draw_line ⟨List.replicate 9 0, ⟨3, 3⟩⟩ ⟨1, 1⟩ ⟨1, 1⟩ 2 7).buf[1]? =
      some 7 ∧
    Canvas.draw_line ⟨List.replicate 9 0, ⟨3, 3⟩⟩ ⟨1, 1⟩ ⟨1, 1⟩ 0 7 =
      Canvas.draw_filled_circle ⟨List.replicate 9 0, ⟨3, 3⟩⟩ ⟨1, 1⟩
        (Int.tdiv 0 2) 7 := by
  have h := c1_draw_line_sweep ⟨List.replicate 9 0, ⟨3, 3⟩⟩ ⟨1, 1⟩ ⟨1, 1⟩ 2 7
    (by decide)
  have h0 := c1_draw_line_sweep ⟨List.replicate 9 0, ⟨3, 3⟩⟩ ⟨1, 1⟩ ⟨1, 1⟩ 0 7
    (by decide)
  exact ⟨h.1 1 ⟨by decide, ⟨1, 1⟩, by decide, 0, -1, by decide, by decide⟩,
    h0.2.2.1⟩

/-- Counterexample for C6: swapping the endpoints changes the set of
touched pixels (the two-branch tie-breaking is direction-dependent), and a
negative thickness (radius `< 0`) plots nothing at all, so the endpoints
are not set for every thickness. -/
theorem c6_counterexample :
    (Canvas.draw_line ⟨List.replicate 6 0, ⟨3, 2⟩⟩ ⟨0, 0⟩ ⟨2, 1⟩ 0 7 ≠
      Canvas.draw_line ⟨List.replicate 6 0, ⟨3, 2⟩⟩ ⟨2, 1⟩ ⟨0, 0⟩ 0 7) ∧
    Canvas.draw_line ⟨List.replicate 6 0, ⟨3, 2⟩⟩ ⟨0, 0⟩ ⟨2, 1⟩ (-2) 7 =
      ⟨List.replicate 6 0, ⟨3, 2⟩⟩ := by
  constructor
  · decide
  · decide

/-- C6 (amended): for nonnegative thickness, `draw_line` sets both endpoint
pixels `a` and `b` whenever they are in bounds, in either direction; the
full pixel sets of the two directions are however not equal in general. -/
theorem c6_endpoints_inclusive (c : Canvas) (a b : Point) (t : ℤ) (col : ℕ)
    (hlen : c.buf.length = c.width * c.height) (ht : 0 ≤ t) :
    (∀ ia : ℕ, pixelIndex c a.x a.y = some ia →
      (c.draw_line a b t col).buf[ia]? = some col) ∧
    (∀ ib : ℕ, pixelIndex c b.x b.y = some ib →
      (c.draw_line a b t col).buf[ib]? = some col) := by
  have hrad : 0 ≤ Int.tdiv t 2 := Int.tdiv_nonneg ht (by norm_num)
  have hsq : (0 : ℤ) * 0 + 0 * 0 ≤ Int.tdiv t 2 * Int.tdiv t 2 := by
    nlinarith [mul_self_nonneg (Int.tdiv t 2)]
  constructor
  · intro ia hia
    apply draw_line_get?_covered c a b t col ia hlen
    exact ⟨hrad, a, self_mem_bresenhamWalk a b, 0, 0, hsq, by simpa using hia⟩
  · intro ib hib
    apply draw_line_get?_covered c a b t col ib hlen
    exact ⟨hrad, b, last_mem_bresenhamWalk a b, 0, 0, hsq, by simpa using hib⟩

/-- Witness for the amended C6 on a 3×2 canvas: the thickness-0 line from
(0, 0) to (2, 1) sets both endpoint pixels. -/
theorem c6_witness :
    (Canvas.draw_line ⟨List.replicate 6 0, ⟨3, 2⟩⟩ ⟨0, 0⟩ ⟨2, 1⟩ 0 7).buf[0]? =
      some 7 ∧
    (Canvas.draw_line ⟨List.replicate 6 0, ⟨3, 2⟩⟩ ⟨0, 0⟩ ⟨2, 1⟩ 0 7).buf[5]? =
      some 7 := by
  have h := c6_endpoints_inclusive ⟨List.replicate 6 0, ⟨3, 2⟩⟩ ⟨0, 0⟩ ⟨2, 1⟩
    0 7 (by decide) (by decide)
  exact ⟨h.1 0 (by decide), h.2 5 (by decide)⟩

/-- C7: the Bresenham walk of `draw_line` (two-branch integer error update:
step x when `2·err ≥ dy`, step y when `2·err ≤ dx`, possibly both in one
iteration) terminates by reaching `b`: it visits exactly
`max |Δx| |Δy| + 1` lattice points starting at `a` and ending at `b`, and
giving the loop any extra fuel does not change the result. -/
theorem c7_walk_terminates (a b : Point) :
    (bresenhamWalk a b).length =
      max (b.x - a.x).natAbs (b.y - a.y).natAbs + 1 ∧
    (bresenhamWalk a b).getLast? = some b ∧
    (bresenhamWalk a b).head? = some a ∧
    ∀ k : ℕ, lineLoop b.x b.y |b.x - a.x| (-|b.y - a.y|)
        (if a.x < b.x then (1 : ℤ) else -1)
        (if a.y < b.y then (1 : ℤ) else -1)
        (max (b.x - a.x).natAbs (b.y - a.y).natAbs + 1 + k)
        a.x a.y (|b.x - a.x| + -|b.y - a.y|) = bresenhamWalk a b := by
  refine ⟨bresenhamWalk_length a b, bresenhamWalk_getLast? a b, ?_,
    (bresenhamWalk_spec a b).1⟩
  have hwalk : bresenhamWalk a b = lineLoop b.x b.y |b.x - a.x|
      (-|b.y - a.y|) (if a.x < b.x then (1 : ℤ) else -1)
      (if a.y < b.y then (1 : ℤ) else -1)
      (max (b.x - a.x).natAbs (b.y - a.y).natAbs + 1)
      a.x a.y (|b.x - a.x| + -|b.y - a.y|) := rfl
  rw [hwalk, lineLoop_succ]
  rfl

theorem draw_line_width (c : Canvas) (a b : Point) (t : ℤ) (col : ℕ) :
    (c.draw_line a b t col).width = c.width := by
  unfold Canvas.width
  rw [draw_line_size]

theorem draw_line_height (c : Canvas) (a b : Point) (t : ℤ) (col : ℕ) :
    (c.draw_line a b t col).height = c.height := by
  unfold Canvas.height
  rw [draw_line_size]

/-- C10: on a canvas whose buffer length is `width * height` (any
dimensions, including 0), `clear`, `put_pixel`, `draw_filled_circle` and
`draw_line` never panic and never index outside the buffer — their checked
embeddings always succeed; `draw_frame` needs the unstated precondition
`width ≥ 1 ∧ height ≥ 1` (its `max_x`/`max_y` underflow in `usize` on an
empty canvas, modelled as `none`), and under that precondition it never
panics for any padding and thickness. -/
theorem c10_no_panic_safety (c : Canvas)
    (hlen : c.buf.length = c.width * c.height) :
    (∀ col : ℕ, (c.clear col).buf.length = c.buf.length) ∧
    (∀ x y : ℤ, ∀ col : ℕ,
      putPixelChecked c x y col = some (c.put_pixel x y col)) ∧
    (∀ center : Point, ∀ r : ℤ, ∀ col : ℕ,
      drawFilledCircleChecked c center r col =
        some (c.draw_filled_circle center r col)) ∧
    (∀ a b : Point, ∀ t : ℤ, ∀ col : ℕ,
      drawLineChecked c a b t col = some (c.draw_line a b t col)) ∧
    (∀ p t : ℤ, ∀ col : ℕ, 1 ≤ c.width → 1 ≤ c.height →
      (drawFrameChecked c p t col).isSome = true) ∧
    (∀ p t : ℤ, ∀ col : ℕ, c.width = 0 ∨ c.height = 0 →
      drawFrameChecked c p t col = none) := by
  refine ⟨fun col => by simp [Canvas.clear],
    fun x y col => putPixelChecked_eq c x y col hlen,
    fun center r col => drawFilledCircleChecked_eq c center r col hlen,
    fun a b t col => drawLineChecked_eq c a b t col hlen,
    ?_, ?_⟩
  · intro p t col hw hh
    unfold drawFrameChecked
    rw [if_neg (by omega)]
    simp only [drawLineChecked_eq, Option.bind_eq_bind, Option.some_bind,
      Option.isSome_some, draw_line_length, draw_line_width,
      draw_line_height, hlen]
  · intro p t col h
    unfold drawFrameChecked
    rw [if_pos (by omega)]

/-- Witness for C10 on a concrete 3×3 canvas: the checked primitives
succeed and `draw_frame` succeeds on the nonempty canvas. -/
theorem c10_witness :
    putPixelChecked ⟨List.replicate 9 0, ⟨3, 3⟩⟩ 0 0 5 =
      some (Canvas.put_pixel ⟨List.replicate 9 0, ⟨3, 3⟩⟩ 0 0 5) ∧
    (drawFrameChecked ⟨List.replicate 9 0, ⟨3, 3⟩⟩ 0 1 7).isSome = true := by
  have h := c10_no_panic_safety ⟨List.replicate 9 0, ⟨3, 3⟩⟩ (by decide)
  exact ⟨h.2.1 0 0 5, h.2.2.2.2.1 0 1 7 (by decide) (by decide)⟩
